import Mathlib

namespace MLUtils

/- Shallow embedding of src/lsh_parallel.py (class LSH).
   Real scalars are modelled as rationals; numpy arrays as nested lists.
   The two nested defaultdicts are modelled as insertion-ordered association
   lists, including the materialisation of missing keys on lookup.
   The float computation floor(np.log2(max_buckets)) is modelled exactly as
   Nat.log2, which agrees with the double precision value for every
   max_buckets below roughly 2 to the 40. -/

abbrev Vec := List ℚ

abbrev Mat := List (List ℚ)

abbrev Bucket := List (ℕ × List ℕ)

abbrev Table := List (ℕ × Bucket)

/-- Errors raised by the constructor: math.floor of np.log2 on a
nonpositive argument raises, and np.random.normal rejects a negative
dimension. The code defines no InvalidConfiguration error. -/
inductive InitError where
  | logOfNonpositive : InitError
  | negativeDimensions : InitError
  deriving Repr, DecidableEq

/-- Errors raised by the query path: iterating the 0-d array produced by
np.squeeze when n_universes is 1, and subscripting hash_to_index_map when
it is still None. Both are TypeError in Python; the code defines no
IndexNotBuilt error. -/
inductive QueryError where
  | zeroDimIteration : QueryError
  | noneSubscript : QueryError
  deriving Repr, DecidableEq

/-- The fields the Python constructor stores on self. n_planes records
planes.shape[2], which numpy keeps with the array. -/
structure LSH where
  n_buckets : ℕ
  n_universes : ℕ
  n_planes : ℕ
  planes : List Mat
  hash_to_index_map : Option Table
  deriving Repr, DecidableEq

/-- Dot product of a vector with column p of one universe plane matrix
(one scalar of the batched np.matmul at line 53). -/
def dotPlane (v : Vec) (m : Mat) (p : ℕ) : ℚ :=
  (List.zipWith (fun x row => x * row.getD p 0) v m).sum

/-- Hash of one vector in one universe: a bit is 1 when the dot product is
nonnegative (sign 0 counts as positive, lines 56 to 60) and the bits are
packed with weights np.power(2, arange(n_planes)) (lines 63 to 65). -/
def hashOne (m : Mat) (nPlanes : ℕ) (v : Vec) : ℕ :=
  ((List.range nPlanes).map
    (fun p => 2 ^ p * (if 0 ≤ dotPlane v m p then 1 else 0))).sum

/-- LSH.get_hash_values (lines 33 to 70). The result is indexed first by
universe and then by sample: the matmul output has shape
(n_universes, samples_number, n_planes) and the sum runs over axis 2,
leaving shape (n_universes, samples_number). -/
def LSH.get_hash_values (cfg : LSH) (vectors : Mat) : List (List ℕ) :=
  cfg.planes.map (fun m => vectors.map (fun v => hashOne m cfg.n_planes v))

/-- list.append of i on the defaultdict entry at key h, creating the entry
at the end of the dict (Python dicts keep insertion order). -/
def ddAppend (b : Bucket) (h i : ℕ) : Bucket :=
  match b with
  | [] => [(h, [i])]
  | (k, v) :: rest =>
      if k = h then (k, v ++ [i]) :: rest else (k, v) :: ddAppend rest h i

/-- hash_to_index_map[universe_id][sample_hash_in_universe].append(i)
(line 90), creating missing keys like the nested defaultdicts do. -/
def tableAppend (t : Table) (u h i : ℕ) : Table :=
  match t with
  | [] => [(u, [(h, [i])])]
  | (k, b) :: rest =>
      if k = u then (k, ddAppend b h i) :: rest
      else (k, b) :: tableAppend rest u h i

/-- One step of the inner loop of make_hash_table at sample i: p is one
(universe_id, universe row of hash values) pair. -/
def bStep (i : ℕ) (t : Table) (p : ℕ × List ℕ) : Table :=
  tableAppend t p.1 (p.2.getD i 0) i

/-- The double loop of make_hash_table (lines 86 to 90): enumerate over
hash_values.T pairs sample i with column i of the (n_universes, N) array,
then the inner loop runs over the universes in ascending order. -/
def buildTable (hv : List (List ℕ)) (n : ℕ) : Table :=
  (List.range n).foldl (fun t i => hv.enum.foldl (bStep i) t) []

/-- LSH.make_hash_table (lines 72 to 90): replaces hash_to_index_map with a
freshly built table. It performs no emptiness check on the corpus. -/
def LSH.make_hash_table (cfg : LSH) (vectors : Mat) : LSH :=
  { cfg with
    hash_to_index_map := some (buildTable (cfg.get_hash_values vectors) vectors.length) }

/-- defaultdict lookup at key h: returns the stored list, materialising an
empty entry when the key is missing (Python defaultdict getitem). -/
def ddGet (b : Bucket) (h : ℕ) : List ℕ × Bucket :=
  match b with
  | [] => ([], [(h, [])])
  | (k, v) :: rest =>
      if k = h then (v, (k, v) :: rest)
      else
        let r := ddGet rest h
        (r.1, (k, v) :: r.2)

/-- hash_to_index_map[universe_id][hash_value] (line 114) on the nested
defaultdicts, materialising both missing keys. -/
def tableGet (t : Table) (u h : ℕ) : List ℕ × Table :=
  match t with
  | [] => ([], [(u, [(h, [])])])
  | (k, b) :: rest =>
      if k = u then
        let r := ddGet b h
        (r.1, (k, r.2) :: rest)
      else
        let r := tableGet rest u h
        (r.1, (k, b) :: r.2)

/-- One step of the query loop (lines 112 to 114): extend similar_indices
with the bucket of the current universe, threading the defaultdict state. -/
def qStep (a : List ℕ × Table) (p : ℕ × ℕ) : List ℕ × Table :=
  let g := tableGet a.2 p.1 p.2
  (a.1 ++ g.1, g.2)

/-- collections.Counter increment: a new key is appended at the end, so the
keys stay in first-occurrence order. -/
def ddIncr (c : List (ℕ × ℕ)) (x : ℕ) : List (ℕ × ℕ) :=
  match c with
  | [] => [(x, 1)]
  | (k, v) :: rest =>
      if k = x then (k, v + 1) :: rest else (k, v) :: ddIncr rest x

/-- Counter(similar_indices): counts with keys in first-occurrence order. -/
def counter (l : List ℕ) : List (ℕ × ℕ) :=
  l.foldl ddIncr []

/-- Stable insertion into a list sorted by descending count: the new
element goes after every element with a strictly larger or equal count
already present, matching the tie handling of Python sorted with
reverse=True and key = count. -/
def insertDesc (x : ℕ × ℕ) : List (ℕ × ℕ) → List (ℕ × ℕ)
  | [] => [x]
  | y :: ys => if y.2 ≤ x.2 then x :: y :: ys else y :: insertDesc x ys

/-- Stable sort by descending count. heapq.nlargest, which Counter
dot most_common uses, is documented as equivalent to
sorted(iterable, key=key, reverse=True) take n, and sorted is stable. -/
def sortDesc : List (ℕ × ℕ) → List (ℕ × ℕ)
  | [] => []
  | x :: xs => insertDesc x (sortDesc xs)

/-- Counter.most_common(k): the k pairs with largest counts, ties kept in
first-occurrence order. -/
def most_common (l : List ℕ) (k : ℕ) : List (ℕ × ℕ) :=
  (sortDesc (counter l)).take k

/-- The per-universe hash values of the query vector: get_hash_values on
the batch of one vector has shape (n_universes, 1); np.squeeze at line 108
drops the sample axis. -/
def queryHashes (cfg : LSH) (v : Vec) : List ℕ :=
  (cfg.get_hash_values [v]).map (fun r => r.getD 0 0)

/-- LSH.get_similar_samples_indices (lines 92 to 119). When n_universes is
exactly 1 the squeeze at line 108 produces a 0-d array and the enumerate at
line 112 raises TypeError; when it is 0 the loop body never runs and the
map is never subscripted; otherwise subscripting a None map raises
TypeError, and on a built map the buckets are collected, counted and the
most common keys are returned. -/
def LSH.get_similar_samples_indices (cfg : LSH) (vector : Vec)
    (n_most_common : ℕ) : Except QueryError (List ℕ × LSH) :=
  let hv := queryHashes cfg vector
  if hv.length = 1 then .error .zeroDimIteration
  else if hv.length = 0 then
    .ok ((most_common [] n_most_common).map (fun e => e.1), cfg)
  else
    match cfg.hash_to_index_map with
    | none => .error .noneSubscript
    | some t =>
        let r := hv.enum.foldl qStep ([], t)
        .ok ((most_common r.1 n_most_common).map (fun e => e.1),
          { cfg with hash_to_index_map := some r.2 })

/-- LSH constructor (lines 11 to 31): n_planes = floor(log2(max_buckets)),
n_buckets = 2 to the n_planes, planes drawn as a
(n_universes, vector_dims, n_planes) array (the draw is parametrised over
the random source), hash_to_index_map starts as None. There is no parameter
validation: only the numeric operations themselves can raise. -/
def LSH.init (vector_dims max_buckets : ℤ) (n_universes : ℕ)
    (draw : ℕ → ℕ → ℕ → ℚ) : Except InitError LSH :=
  if max_buckets ≤ 0 then .error .logOfNonpositive
  else
    let nPlanes := Nat.log2 max_buckets.toNat
    if vector_dims < 0 then .error .negativeDimensions
    else
      .ok
        { n_buckets := 2 ^ nPlanes
          n_universes := n_universes
          n_planes := nPlanes
          planes :=
            (List.range n_universes).map (fun u =>
              (List.range vector_dims.toNat).map (fun r =>
                (List.range nPlanes).map (fun p => draw u r p)))
          hash_to_index_map := none }

/-- Association list lookup with a default, the extensional view of a
defaultdict: an absent key maps to the default. -/
def assocFind {α : Type} (t : List (ℕ × α)) (k : ℕ) (d : α) : α :=
  match t with
  | [] => d
  | (k2, v) :: rest => if k2 = k then v else assocFind rest k d

/-- The inner dict of one universe, empty when the universe is absent. -/
def universeBucket (t : Table) (u : ℕ) : Bucket :=
  assocFind t u []

/-- The identifier list stored for universe u and bucket code h, the
extensional state of the nested defaultdicts. -/
def tableLookup (t : Table) (u h : ℕ) : List ℕ :=
  assocFind (universeBucket t u) h []

/-- All identifiers stored in one universe, in bucket-list order. -/
def allIndices (b : Bucket) : List ℕ :=
  (b.map (fun e => e.2)).flatten

/-- Whether an Except value is a success. -/
def exceptOk {ε α : Type} : Except ε α → Bool
  | .ok _ => true
  | .error _ => false

instance {ε α : Type} [DecidableEq ε] [DecidableEq α] :
    DecidableEq (Except ε α) := fun x y =>
  match x, y with
  | .ok a, .ok b =>
      if h : a = b then isTrue (by rw [h])
      else isFalse (fun hh => by cases hh; exact h rfl)
  | .ok _, .error _ => isFalse (fun hh => by cases hh)
  | .error _, .ok _ => isFalse (fun hh => by cases hh)
  | .error a, .error b =>
      if h : a = b then isTrue (by rw [h])
      else isFalse (fun hh => by cases hh; exact h rfl)

/-- A concrete 2-universe, 2-dimensional, 2-plane configuration used by
witnesses. -/
def lshA : LSH :=
  { n_buckets := 4
    n_universes := 2
    n_planes := 2
    planes := [[[1, 0], [0, 1]], [[1, 1], [0, -1]]]
    hash_to_index_map := none }

/-- A concrete 2-universe, 1-dimensional, 1-plane configuration used by
witnesses. -/
def lshB : LSH :=
  { n_buckets := 2
    n_universes := 2
    n_planes := 1
    planes := [[[1]], [[-1]]]
    hash_to_index_map := none }

/-- The single-universe configuration produced by the constructor with
vector_dims 1, max_buckets 2, n_universes 1 and a constant draw. -/
def lshC : LSH :=
  { n_buckets := 2
    n_universes := 1
    n_planes := 1
    planes := [[[1]]]
    hash_to_index_map := none }

/-- The index built from lshB on the two antiparallel vectors [1] and
[-1]. -/
def builtB : LSH :=
  lshB.make_hash_table [[1], [-1]]

/-- The bucket table stored inside builtB. -/
def tableB : Table :=
  [(0, [(1, [0]), (0, [1])]), (1, [(0, [0]), (1, [1])])]

theorem getD_map {α β : Type} (f : α → β) (l : List α) (n : ℕ) (d : β)
    (d2 : α) (h : n < l.length) : (l.map f).getD n d = f (l.getD n d2) := by
  rw [List.getD_eq_getElem (l.map f) d (by simpa using h),
    List.getD_eq_getElem l d2 h, List.getElem_map]

theorem assocFind_ddAppend (b : Bucket) (h i k : ℕ) :
    assocFind (ddAppend b h i) k [] =
      if k = h then assocFind b k [] ++ [i] else assocFind b k [] := by
  induction b with
  | nil =>
      by_cases hk : k = h
      · subst hk; simp [ddAppend, assocFind]
      · have hk2 : ¬ h = k := fun hh => hk hh.symm
        simp [ddAppend, assocFind, hk, hk2]
  | cons p rest ih =>
      obtain ⟨k2, v⟩ := p
      by_cases h1 : k2 = h
      · subst h1
        by_cases h2 : k2 = k
        · subst h2; simp [ddAppend, assocFind]
        · have h2b : ¬ k = k2 := fun hh => h2 hh.symm
          simp [ddAppend, assocFind, h2, h2b]
      · by_cases h2 : k2 = k
        · subst h2
          simp [ddAppend, assocFind, h1]
        · simp [ddAppend, assocFind, h1, h2, ih]

theorem universeBucket_tableAppend (t : Table) (u h i u2 : ℕ) :
    universeBucket (tableAppend t u h i) u2 =
      if u2 = u then ddAppend (universeBucket t u) h i
      else universeBucket t u2 := by
  induction t with
  | nil =>
      by_cases hu : u2 = u
      · subst hu; simp [tableAppend, universeBucket, assocFind, ddAppend]
      · have hu2 : ¬ u = u2 := fun hh => hu hh.symm
        simp [tableAppend, universeBucket, assocFind, hu, hu2]
  | cons p rest ih =>
      obtain ⟨k2, b⟩ := p
      by_cases h1 : k2 = u
      · subst h1
        by_cases h2 : k2 = u2
        · subst h2; simp [tableAppend, universeBucket, assocFind]
        · have h2b : ¬ u2 = k2 := fun hh => h2 hh.symm
          simp [tableAppend, universeBucket, assocFind, h2, h2b]
      · by_cases h2 : k2 = u2
        · subst h2
          simp [tableAppend, universeBucket, assocFind, h1]
        · simp only [universeBucket] at ih
          simp [tableAppend, universeBucket, assocFind, h1, h2, ih]

theorem tableLookup_tableAppend (t : Table) (u h i u2 k : ℕ) :
    tableLookup (tableAppend t u h i) u2 k =
      if u2 = u ∧ k = h then tableLookup t u2 k ++ [i]
      else tableLookup t u2 k := by
  unfold tableLookup
  rw [universeBucket_tableAppend]
  by_cases hu : u2 = u
  · subst hu
    rw [if_pos rfl, assocFind_ddAppend]
    by_cases hk : k = h <;> simp [hk]
  · simp [hu]

theorem ddGet_fst (b : Bucket) (h : ℕ) : (ddGet b h).1 = assocFind b h [] := by
  induction b with
  | nil => simp [ddGet, assocFind]
  | cons p rest ih =>
      obtain ⟨k2, v⟩ := p
      by_cases h1 : k2 = h <;> simp [ddGet, assocFind, h1, ih]

theorem assocFind_ddGet (b : Bucket) (h k : ℕ) :
    assocFind (ddGet b h).2 k [] = assocFind b k [] := by
  induction b with
  | nil =>
      by_cases hk : h = k
      · subst hk; simp [ddGet, assocFind]
      · simp [ddGet, assocFind, hk]
  | cons p rest ih =>
      obtain ⟨k2, v⟩ := p
      rcases eq_or_ne k2 h with h1 | h1
      · subst h1
        rcases eq_or_ne k2 k with h2 | h2
        · subst h2; simp [ddGet, assocFind]
        · simp [ddGet, assocFind, h2]
      · rcases eq_or_ne k2 k with h2 | h2
        · subst h2
          simp [ddGet, assocFind, h1]
        · simp [ddGet, assocFind, h1, h2, ih]

theorem tableGet_fst (t : Table) (u h : ℕ) :
    (tableGet t u h).1 = tableLookup t u h := by
  induction t with
  | nil => simp [tableGet, tableLookup, universeBucket, assocFind]
  | cons p rest ih =>
      obtain ⟨k2, b⟩ := p
      by_cases h1 : k2 = u <;>
        simp [tableGet, tableLookup, universeBucket, assocFind, h1, ddGet_fst,
          ih]

theorem tableLookup_tableGet (t : Table) (u h u2 k : ℕ) :
    tableLookup (tableGet t u h).2 u2 k = tableLookup t u2 k := by
  induction t with
  | nil =>
      by_cases hu : u = u2
      · subst hu
        by_cases hk : h = k
        · subst hk; simp [tableGet, tableLookup, universeBucket, assocFind]
        · simp [tableGet, tableLookup, universeBucket, assocFind, hk]
      · simp [tableGet, tableLookup, universeBucket, assocFind, hu]
  | cons p rest ih =>
      obtain ⟨k2, b⟩ := p
      rcases eq_or_ne k2 u with h1 | h1
      · subst h1
        rcases eq_or_ne k2 u2 with h2 | h2
        · subst h2
          simp [tableGet, tableLookup, universeBucket, assocFind,
            assocFind_ddGet]
        · simp [tableGet, tableLookup, universeBucket, assocFind, h2]
      · rcases eq_or_ne k2 u2 with h2 | h2
        · subst h2
          simp [tableGet, tableLookup, universeBucket, assocFind, h1]
        · have ih2 := ih
          simp only [tableLookup, universeBucket] at ih2
          simp [tableGet, tableLookup, universeBucket, assocFind, h1, h2, ih2]

theorem qStep_foldl_fst (qs : List (ℕ × ℕ)) (t : Table) (acc : List ℕ) :
    (qs.foldl qStep (acc, t)).1 =
      acc ++ (qs.map (fun p => tableLookup t p.1 p.2)).flatten := by
  induction qs generalizing t acc with
  | nil => simp
  | cons p rest ih =>
      have hstep : qStep (acc, t) p =
          (acc ++ tableLookup t p.1 p.2, (tableGet t p.1 p.2).2) := by
        simp [qStep, tableGet_fst]
      have hmap :
          rest.map (fun q => tableLookup (tableGet t p.1 p.2).2 q.1 q.2) =
            rest.map (fun q => tableLookup t q.1 q.2) := by
        exact List.map_congr_left (fun q _ => tableLookup_tableGet _ _ _ _ _)
      simp only [List.foldl_cons, hstep, ih, hmap, List.map_cons,
        List.flatten_cons, List.append_assoc]

theorem qStep_foldl_lookup (qs : List (ℕ × ℕ)) (t : Table) (acc : List ℕ)
    (u k : ℕ) :
    tableLookup (qs.foldl qStep (acc, t)).2 u k = tableLookup t u k := by
  induction qs generalizing t acc with
  | nil => simp
  | cons p rest ih =>
      have hstep : qStep (acc, t) p =
          (acc ++ tableLookup t p.1 p.2, (tableGet t p.1 p.2).2) := by
        simp [qStep, tableGet_fst]
      simp only [List.foldl_cons, hstep, ih, tableLookup_tableGet]

theorem allIndices_ddAppend (b : Bucket) (h i j : ℕ) :
    List.count j (allIndices (ddAppend b h i)) =
      List.count j (allIndices b) + (if j = i then 1 else 0) := by
  induction b with
  | nil =>
      simp only [ddAppend, allIndices, List.map_cons, List.map_nil,
        List.flatten_cons, List.flatten_nil, List.append_nil,
        List.count_cons, List.count_nil, beq_iff_eq]
      split_ifs <;> omega
  | cons p rest ih =>
      obtain ⟨k2, v⟩ := p
      rcases eq_or_ne k2 h with h1 | h1
      · subst h1
        rw [show ddAppend ((k2, v) :: rest) k2 i = (k2, v ++ [i]) :: rest by
          simp [ddAppend]]
        rw [show allIndices ((k2, v ++ [i]) :: rest) =
            (v ++ [i]) ++ allIndices rest by simp [allIndices]]
        rw [show allIndices ((k2, v) :: rest) = v ++ allIndices rest by
          simp [allIndices]]
        rw [List.count_append, List.count_append, List.count_append]
        simp only [List.count_cons, List.count_nil, beq_iff_eq]
        split_ifs <;> omega
      · rw [show ddAppend ((k2, v) :: rest) h i =
            (k2, v) :: ddAppend rest h i by simp [ddAppend, h1]]
        rw [show allIndices ((k2, v) :: ddAppend rest h i) =
            v ++ allIndices (ddAppend rest h i) by simp [allIndices]]
        rw [show allIndices ((k2, v) :: rest) = v ++ allIndices rest by
          simp [allIndices]]
        rw [List.count_append, List.count_append, ih]
        omega

theorem count_universeBucket_tableAppend (t : Table) (u h i u2 j : ℕ) :
    List.count j (allIndices (universeBucket (tableAppend t u h i) u2)) =
      List.count j (allIndices (universeBucket t u2)) +
        (if u2 = u ∧ j = i then 1 else 0) := by
  rw [universeBucket_tableAppend]
  rcases eq_or_ne u2 u with h1 | h1
  · subst h1; simp [allIndices_ddAppend]
  · simp [h1]

theorem bStep_foldl_count (ps : List (ℕ × List ℕ)) (i : ℕ) (t : Table)
    (u j : ℕ) :
    List.count j (allIndices (universeBucket (ps.foldl (bStep i) t) u)) =
      List.count j (allIndices (universeBucket t u)) +
        (ps.countP (fun p => p.1 = u)) * (if j = i then 1 else 0) := by
  induction ps generalizing t with
  | nil => simp
  | cons p rest ih =>
      rw [List.foldl_cons, ih,
        show bStep i t p = tableAppend t p.1 (p.2.getD i 0) i from rfl,
        count_universeBucket_tableAppend, List.countP_cons]
      simp only [decide_eq_true_eq]
      rw [show (if u = p.1 ∧ j = i then (1 : ℕ) else 0) =
          (if u = p.1 then 1 else 0) * (if j = i then 1 else 0) by
        split_ifs <;> simp_all]
      rw [show (if p.1 = u then (1 : ℕ) else 0) =
          (if u = p.1 then 1 else 0) by split_ifs <;> omega]
      generalize (if u = p.1 then (1 : ℕ) else 0) = a
      generalize (if j = i then (1 : ℕ) else 0) = b
      generalize List.countP (fun q => decide (q.1 = u)) rest = c
      generalize List.count j (allIndices (universeBucket t u)) = s
      ring

theorem build_foldl_count (is : List ℕ) (hv : List (List ℕ)) (t : Table)
    (u j : ℕ) :
    List.count j (allIndices (universeBucket
        (is.foldl (fun t2 i => hv.enum.foldl (bStep i) t2) t) u)) =
      List.count j (allIndices (universeBucket t u)) +
        (hv.enum.countP (fun p => p.1 = u)) * (List.count j is) := by
  induction is generalizing t with
  | nil => simp
  | cons i rest ih =>
      rw [List.foldl_cons, ih, bStep_foldl_count, List.count_cons]
      rw [show (if (i == j) = true then (1 : ℕ) else 0) =
          (if j = i then 1 else 0) from by
        simp only [beq_iff_eq]
        split_ifs <;> omega]
      generalize (if j = i then 1 else 0) = a
      generalize hv.enum.countP (fun p => p.1 = u) = c
      generalize List.count j rest = r
      generalize List.count j (allIndices (universeBucket t u)) = s
      ring

theorem countP_fst_enumFrom {α : Type} (l : List α) (u n : ℕ) :
    (List.enumFrom n l).countP (fun p => p.1 = u) =
      if n ≤ u ∧ u < n + l.length then 1 else 0 := by
  induction l generalizing n with
  | nil =>
      simp only [List.enumFrom_nil, List.countP_nil, List.length_nil]
      rw [if_neg (by omega)]
  | cons x xs ih =>
      simp only [List.enumFrom_cons, List.countP_cons, ih (n + 1),
        decide_eq_true_eq, List.length_cons]
      split_ifs <;> omega

theorem countP_fst_enum {α : Type} (l : List α) (u : ℕ) :
    l.enum.countP (fun p => p.1 = u) = if u < l.length then 1 else 0 := by
  rw [show l.enum = List.enumFrom 0 l from rfl, countP_fst_enumFrom]
  split_ifs <;> omega

theorem count_range (j n : ℕ) :
    List.count j (List.range n) = if j < n then 1 else 0 := by
  induction n with
  | zero => simp
  | succ n ih =>
      rw [List.range_succ, List.count_append, ih]
      simp only [List.count_cons, List.count_nil, beq_iff_eq]
      split_ifs <;> omega

theorem buildTable_count (hv : List (List ℕ)) (n u j : ℕ) :
    List.count j (allIndices (universeBucket (buildTable hv n) u)) =
      (if u < hv.length then 1 else 0) * (if j < n then 1 else 0) := by
  rw [buildTable, build_foldl_count, countP_fst_enum, count_range]
  simp [universeBucket, assocFind, allIndices]

theorem mem_assocFind_allIndices (b : Bucket) (k j : ℕ)
    (h : j ∈ assocFind b k []) : j ∈ allIndices b := by
  induction b with
  | nil => simp [assocFind] at h
  | cons p rest ih =>
      obtain ⟨k2, v⟩ := p
      rcases eq_or_ne k2 k with h1 | h1
      · rw [assocFind, if_pos h1] at h
        simp only [allIndices, List.map_cons, List.flatten_cons,
          List.mem_append]
        exact Or.inl h
      · rw [assocFind, if_neg h1] at h
        simp only [allIndices, List.map_cons, List.flatten_cons,
          List.mem_append]
        exact Or.inr (ih h)

theorem countP_mem_of_count_zero (b : Bucket) (j : ℕ)
    (h : List.count j (allIndices b) = 0) :
    b.countP (fun bk => decide (j ∈ bk.2)) = 0 := by
  induction b with
  | nil => simp
  | cons p rest ih =>
      have hsplit : allIndices (p :: rest) = p.2 ++ allIndices rest := by
        simp [allIndices]
      rw [hsplit, List.count_append] at h
      have h1 : List.count j p.2 = 0 := by omega
      have h2 : List.count j (allIndices rest) = 0 := by omega
      have hnm : j ∉ p.2 := by
        intro hm
        have := List.count_pos_iff.mpr hm
        omega
      rw [List.countP_cons]
      simp [hnm, ih h2]

theorem countP_mem_of_count_one (b : Bucket) (j : ℕ)
    (h : List.count j (allIndices b) = 1) :
    b.countP (fun bk => decide (j ∈ bk.2)) = 1 := by
  induction b with
  | nil => simp [allIndices] at h
  | cons p rest ih =>
      have hsplit : allIndices (p :: rest) = p.2 ++ allIndices rest := by
        simp [allIndices]
      rw [hsplit, List.count_append] at h
      rw [List.countP_cons]
      rcases Nat.eq_zero_or_pos (List.count j p.2) with h1 | h1
      · have hnm : j ∉ p.2 := by
          intro hm
          have := List.count_pos_iff.mpr hm
          omega
        have h2 : List.count j (allIndices rest) = 1 := by omega
        simp [hnm, ih h2]
      · have hm : j ∈ p.2 := List.count_pos_iff.mp h1
        have h2 : List.count j (allIndices rest) = 0 := by omega
        simp [hm, countP_mem_of_count_zero rest j h2]

theorem ddIncr_keys (c : List (ℕ × ℕ)) (x : ℕ) :
    (ddIncr c x).map Prod.fst =
      if x ∈ c.map Prod.fst then c.map Prod.fst
      else c.map Prod.fst ++ [x] := by
  induction c with
  | nil => simp [ddIncr]
  | cons p rest ih =>
      obtain ⟨k, v⟩ := p
      rcases eq_or_ne k x with h1 | h1
      · subst h1; simp [ddIncr]
      · have h1b : ¬ x = k := fun hh => h1 hh.symm
        simp only [ddIncr, if_neg h1, List.map_cons, ih, List.mem_cons]
        rcases Classical.em (x ∈ rest.map Prod.fst) with h2 | h2
        · rw [if_pos h2, if_pos (Or.inr h2)]
        · rw [if_neg h2, if_neg (by rintro (h3 | h3); exact h1b h3; exact h2 h3)]
          simp

theorem foldl_ddIncr_keys_nodup (l : List ℕ) (acc : List (ℕ × ℕ))
    (hacc : (acc.map Prod.fst).Nodup) :
    ((l.foldl ddIncr acc).map Prod.fst).Nodup := by
  induction l generalizing acc with
  | nil => simpa using hacc
  | cons x xs ih =>
      rw [List.foldl_cons]
      refine ih (ddIncr acc x) ?_
      rw [ddIncr_keys]
      rcases Classical.em (x ∈ acc.map Prod.fst) with h2 | h2
      · rwa [if_pos h2]
      · rw [if_neg h2]
        simp [List.nodup_append, hacc, h2]

theorem counter_keys_nodup (l : List ℕ) : ((counter l).map Prod.fst).Nodup :=
  foldl_ddIncr_keys_nodup l [] (by simp)

theorem foldl_ddIncr_keys_sub (l : List ℕ) (acc : List (ℕ × ℕ)) (x : ℕ)
    (hx : x ∈ (l.foldl ddIncr acc).map Prod.fst) :
    x ∈ acc.map Prod.fst ∨ x ∈ l := by
  induction l generalizing acc with
  | nil => exact Or.inl (by simpa using hx)
  | cons y ys ih =>
      rw [List.foldl_cons] at hx
      rcases ih (ddIncr acc y) hx with h | h
      · rw [ddIncr_keys] at h
        rcases Classical.em (y ∈ acc.map Prod.fst) with h2 | h2
        · rw [if_pos h2] at h
          exact Or.inl h
        · rw [if_neg h2] at h
          rcases List.mem_append.mp h with h3 | h3
          · exact Or.inl h3
          · simp only [List.mem_singleton] at h3
            exact Or.inr (by simp [h3])
      · exact Or.inr (List.mem_cons_of_mem _ h)

theorem counter_keys_sub (l : List ℕ) (x : ℕ)
    (hx : x ∈ (counter l).map Prod.fst) : x ∈ l := by
  rcases foldl_ddIncr_keys_sub l [] x hx with h | h
  · simp at h
  · exact h

theorem insertDesc_perm (x : ℕ × ℕ) (L : List (ℕ × ℕ)) :
    (insertDesc x L).Perm (x :: L) := by
  induction L with
  | nil => simp [insertDesc]
  | cons y ys ih =>
      rw [insertDesc]
      split_ifs with hc
      · exact List.Perm.refl _
      · exact (ih.cons y).trans (List.Perm.swap x y ys)

theorem sortDesc_perm (L : List (ℕ × ℕ)) : (sortDesc L).Perm L := by
  induction L with
  | nil => simp [sortDesc]
  | cons x xs ih =>
      rw [sortDesc]
      exact (insertDesc_perm x (sortDesc xs)).trans (ih.cons x)

theorem insertDesc_pairwise (x : ℕ × ℕ) (L : List (ℕ × ℕ))
    (h : L.Pairwise (fun a b => b.2 ≤ a.2)) :
    (insertDesc x L).Pairwise (fun a b => b.2 ≤ a.2) := by
  induction L with
  | nil => simp [insertDesc]
  | cons y ys ih =>
      rw [List.pairwise_cons] at h
      rw [insertDesc]
      split_ifs with hc
      · rw [List.pairwise_cons]
        refine ⟨?_, List.Pairwise.cons h.1 h.2⟩
        intro z hz
        rcases List.mem_cons.mp hz with h2 | h2
        · rw [h2]; exact hc
        · exact le_trans (h.1 z h2) hc
      · rw [List.pairwise_cons]
        refine ⟨?_, ih h.2⟩
        intro z hz
        have hz2 := (insertDesc_perm x ys).mem_iff.mp hz
        rcases List.mem_cons.mp hz2 with h2 | h2
        · rw [h2]; exact le_of_not_le hc
        · exact h.1 z h2

theorem sortDesc_pairwise (L : List (ℕ × ℕ)) :
    (sortDesc L).Pairwise (fun a b => b.2 ≤ a.2) := by
  induction L with
  | nil => simp [sortDesc]
  | cons x xs ih =>
      rw [sortDesc]
      exact insertDesc_pairwise x (sortDesc xs) ih

theorem insertDesc_filter_ne (x : ℕ × ℕ) (L : List (ℕ × ℕ)) (c : ℕ)
    (hx : ¬ x.2 = c) :
    (insertDesc x L).filter (fun p => p.2 = c) =
      L.filter (fun p => p.2 = c) := by
  induction L with
  | nil => simp [insertDesc, List.filter_cons, hx]
  | cons y ys ih =>
      rw [insertDesc]
      split_ifs with hc
      · rw [List.filter_cons, if_neg (by simpa using hx)]
      · rw [List.filter_cons, List.filter_cons]
        rcases Classical.em (y.2 = c) with h2 | h2
        · rw [if_pos (by simpa using h2), if_pos (by simpa using h2), ih]
        · rw [if_neg (by simpa using h2), if_neg (by simpa using h2), ih]

theorem insertDesc_filter_eq (x : ℕ × ℕ) (L : List (ℕ × ℕ)) (c : ℕ)
    (hx : x.2 = c) (h : L.Pairwise (fun a b => b.2 ≤ a.2)) :
    (insertDesc x L).filter (fun p => p.2 = c) =
      x :: L.filter (fun p => p.2 = c) := by
  induction L with
  | nil => simp [insertDesc, List.filter_cons, hx]
  | cons y ys ih =>
      rw [List.pairwise_cons] at h
      rw [insertDesc]
      split_ifs with hc
      · rw [List.filter_cons, if_pos (by simpa using hx)]
      · have hy : ¬ y.2 = c := by
          intro h2
          exact hc (by rw [h2, ← hx])
        rw [List.filter_cons, if_neg (by simpa using hy), ih h.2,
          List.filter_cons, if_neg (by simpa using hy)]

theorem sortDesc_filter (L : List (ℕ × ℕ)) (c : ℕ) :
    (sortDesc L).filter (fun p => p.2 = c) =
      L.filter (fun p => p.2 = c) := by
  induction L with
  | nil => simp [sortDesc]
  | cons x xs ih =>
      rw [sortDesc]
      rcases Classical.em (x.2 = c) with h1 | h1
      · rw [insertDesc_filter_eq x (sortDesc xs) c h1 (sortDesc_pairwise xs),
          ih, List.filter_cons, if_pos (by simpa using h1)]
      · rw [insertDesc_filter_ne x (sortDesc xs) c h1, ih, List.filter_cons,
          if_neg (by simpa using h1)]

theorem map_enumFrom {α β : Type} (l : List α) (d : α) (g : ℕ → α → β) :
    ∀ n, (List.enumFrom n l).map (fun p => g p.1 p.2) =
      (List.range l.length).map (fun j => g (n + j) (l.getD j d)) := by
  induction l with
  | nil => intro n; simp
  | cons x xs ih =>
      intro n
      rw [List.enumFrom_cons, List.map_cons, List.length_cons,
        List.range_succ_eq_map, List.map_cons, List.map_map, ih (n + 1)]
      refine congrArg₂ _ (by simp) ?_
      refine List.map_congr_left ?_
      intro j _
      simp only [Function.comp_apply, List.getD_cons_succ]
      rw [show n + (j + 1) = n + 1 + j by omega]

theorem map_enum {α β : Type} (l : List α) (d : α) (g : ℕ → α → β) :
    l.enum.map (fun p => g p.1 p.2) =
      (List.range l.length).map (fun j => g j (l.getD j d)) := by
  rw [List.enum_eq_enumFrom, map_enumFrom l d g 0]
  exact List.map_congr_left (fun j _ => by rw [Nat.zero_add])

theorem find_enumFrom {α : Type} (l : List α) (d : α) :
    ∀ n u, n ≤ u → u < n + l.length →
      (List.enumFrom n l).find? (fun p => p.1 = u) =
        some (u, l.getD (u - n) d) := by
  induction l with
  | nil => intro n u h1 h2; simp at h2; omega
  | cons x xs ih =>
      intro n u h1 h2
      rw [List.enumFrom_cons, List.find?_cons]
      rcases eq_or_ne n u with h3 | h3
      · subst h3
        simp
      · have hd : (decide ((n, x).1 = u)) = false := by
          simp [h3]
        rw [hd]
        have h4 : u - n = (u - (n + 1)) + 1 := by omega
        rw [ih (n + 1) u (by omega) (by simp at h2 ⊢; omega), h4,
          List.getD_cons_succ]

theorem find_enum {α : Type} (l : List α) (d : α) (u : ℕ) (h : u < l.length) :
    l.enum.find? (fun p => p.1 = u) = some (u, l.getD u d) := by
  rw [List.enum_eq_enumFrom, find_enumFrom l d 0 u (by omega) (by omega)]
  simp

theorem enumFrom_fst_pairwise {α : Type} (l : List α) :
    ∀ n, (List.enumFrom n l).Pairwise (fun a b => a.1 ≠ b.1) := by
  induction l with
  | nil => intro n; simp
  | cons x xs ih =>
      intro n
      rw [List.enumFrom_cons, List.pairwise_cons]
      refine ⟨?_, ih (n + 1)⟩
      intro p hp
      have hge : ∀ (ys : List α) (m : ℕ) (q : ℕ × α),
          q ∈ List.enumFrom m ys → m ≤ q.1 := by
        intro ys
        induction ys with
        | nil => intro m q hq; simp at hq
        | cons z zs ih2 =>
            intro m q hq
            rw [List.enumFrom_cons] at hq
            rcases List.mem_cons.mp hq with h2 | h2
            · rw [h2]
            · exact le_trans (by omega) (ih2 (m + 1) q h2)
      have := hge xs (n + 1) p hp
      intro hc
      rw [← hc] at this
      omega

theorem sum_map_two_mul (l : List ℕ) (f : ℕ → ℕ) :
    (l.map (fun p => 2 * f p)).sum = 2 * (l.map f).sum := by
  induction l with
  | nil => simp
  | cons x xs ih =>
      simp only [List.map_cons, List.sum_cons, ih]
      ring

theorem pack_decompose (P : ℕ) (b : ℕ → ℕ) :
    ((List.range (P + 1)).map (fun p => 2 ^ p * b p)).sum =
      b 0 + 2 * ((List.range P).map (fun p => 2 ^ p * b (p + 1))).sum := by
  rw [List.range_succ_eq_map, List.map_cons, List.sum_cons, List.map_map]
  have e1 : (List.range P).map ((fun p => 2 ^ p * b p) ∘ Nat.succ) =
      (List.range P).map (fun p => 2 * (2 ^ p * b (p + 1))) := by
    refine List.map_congr_left ?_
    intro j _
    simp only [Function.comp_apply, Nat.succ_eq_add_one, pow_succ]
    ring
  rw [e1, sum_map_two_mul]
  simp

theorem pack_lt (P : ℕ) (b : ℕ → ℕ) (hb : ∀ p, b p ≤ 1) :
    ((List.range P).map (fun p => 2 ^ p * b p)).sum < 2 ^ P := by
  induction P generalizing b with
  | zero => simp
  | succ P ih =>
      rw [pack_decompose]
      have h1 : ((List.range P).map (fun p => 2 ^ p * b (p + 1))).sum < 2 ^ P :=
        ih (fun p => b (p + 1)) (fun p => hb (p + 1))
      have h2 := hb 0
      have h3 : (2 : ℕ) ^ (P + 1) = 2 * 2 ^ P := by ring
      omega

theorem pack_testBit (P : ℕ) (b : ℕ → ℕ) (hb : ∀ p, b p ≤ 1) :
    ∀ i, i < P →
      (((List.range P).map (fun p => 2 ^ p * b p)).sum).testBit i =
        decide (b i = 1) := by
  induction P generalizing b with
  | zero => intro i hi; omega
  | succ P ih =>
      intro i hi
      rw [pack_decompose]
      match i with
      | 0 =>
          rw [Nat.testBit_zero]
          have h2 := hb 0
          have hmod : (b 0 + 2 * ((List.range P).map
              (fun p => 2 ^ p * b (p + 1))).sum) % 2 = b 0 := by omega
          rw [hmod]
      | i + 1 =>
          rw [Nat.testBit_succ]
          have h2 := hb 0
          have hdiv : (b 0 + 2 * ((List.range P).map
              (fun p => 2 ^ p * b (p + 1))).sum) / 2 =
              ((List.range P).map (fun p => 2 ^ p * b (p + 1))).sum := by
            omega
          rw [hdiv]
          exact ih (fun p => b (p + 1)) (fun p => hb (p + 1)) i (by omega)

theorem bStep_foldl_lookup_absent (ps : List (ℕ × List ℕ)) (i u k : ℕ) :
    ∀ t, (∀ q ∈ ps, ¬ q.1 = u) →
      tableLookup (ps.foldl (bStep i) t) u k = tableLookup t u k := by
  induction ps with
  | nil => intro t _; simp
  | cons p rest ih =>
      intro t hq
      rw [List.foldl_cons, ih _ (fun q hq2 => hq q (List.mem_cons_of_mem _ hq2)),
        show bStep i t p = tableAppend t p.1 (p.2.getD i 0) i from rfl,
        tableLookup_tableAppend]
      rw [if_neg ?_]
      rintro ⟨hu2, -⟩
      exact hq p (List.mem_cons_self _ _) hu2.symm

theorem bStep_foldl_lookup_found (ps : List (ℕ × List ℕ)) (i u k : ℕ)
    (q : ℕ × List ℕ) :
    ∀ t, ps.Pairwise (fun a b => a.1 ≠ b.1) →
      ps.find? (fun p => p.1 = u) = some q →
      tableLookup (ps.foldl (bStep i) t) u k =
        if q.2.getD i 0 = k then tableLookup t u k ++ [i]
        else tableLookup t u k := by
  induction ps with
  | nil => intro t _ hf; simp at hf
  | cons p rest ih =>
      intro t hpw hf
      rw [List.pairwise_cons] at hpw
      rw [List.find?_cons] at hf
      rcases eq_or_ne p.1 u with h1 | h1
      · rw [show (decide (p.1 = u)) = true by simp [h1]] at hf
        have hq : q = p := by
          have := hf
          simp at this
          exact this.symm
        subst hq
        have hnone : ∀ r ∈ rest, ¬ r.1 = u := by
          intro r hr hc
          exact (hpw.1 r hr) (by rw [h1, ← hc])
        rw [List.foldl_cons, bStep_foldl_lookup_absent rest i u k _ hnone,
          show bStep i t q = tableAppend t q.1 (q.2.getD i 0) i from rfl,
          tableLookup_tableAppend]
        rcases eq_or_ne (q.2.getD i 0) k with h3 | h3
        · rw [if_pos ⟨h1.symm, h3.symm⟩, if_pos h3]
        · rw [if_neg (by rintro ⟨-, hk⟩; exact h3 hk.symm), if_neg h3]
      · rw [show (decide (p.1 = u)) = false by simp [h1]] at hf
        have hpre : tableLookup (bStep i t p) u k = tableLookup t u k := by
          rw [show bStep i t p = tableAppend t p.1 (p.2.getD i 0) i from rfl,
            tableLookup_tableAppend]
          rw [if_neg ?_]
          rintro ⟨hu2, -⟩
          exact h1 hu2.symm
        rw [List.foldl_cons, ih _ hpw.2 hf, hpre]

/-- Closed form of the query path on a built index whose squeeze result has
length at least 2. -/
theorem query_built_eval (cfg : LSH) (v : Vec) (k : ℕ) (t : Table)
    (hsome : cfg.hash_to_index_map = some t)
    (hlen2 : 2 ≤ (queryHashes cfg v).length) :
    cfg.get_similar_samples_indices v k =
      .ok ((most_common ((queryHashes cfg v).enum.foldl qStep ([], t)).1
          k).map (fun e => e.1),
        { cfg with hash_to_index_map := some ((queryHashes cfg v).enum.foldl qStep ([], t)).2 }) := by
  simp only [LSH.get_similar_samples_indices]
  rw [if_neg (by omega), if_neg (by omega), hsome]

theorem flatten_of_all_nil {α : Type} (L : List (List α))
    (h : ∀ x ∈ L, x = []) : L.flatten = [] := by
  induction L with
  | nil => simp
  | cons x xs ih =>
      rw [List.flatten_cons, h x (List.mem_cons_self _ _),
        ih (fun y hy => h y (List.mem_cons_of_mem _ hy)), List.nil_append]

theorem counter_flatten_replicate (m : ℕ) (hm : 1 ≤ m) :
    counter (List.flatten (List.replicate m [0, 1, 2])) =
      [(0, m), (1, m), (2, m)] := by
  induction m with
  | zero => omega
  | succ m ih =>
      rcases Nat.eq_zero_or_pos m with h0 | h0
      · subst h0; decide
      · rw [List.replicate_succ', List.flatten_append,
          show List.flatten [[0, 1, 2]] = [0, 1, 2] by simp]
        rw [counter, List.foldl_append,
          show List.foldl ddIncr [] (List.flatten (List.replicate m [0, 1, 2]))
            = counter (List.flatten (List.replicate m [0, 1, 2])) from rfl,
          ih h0]
        simp [ddIncr]

theorem sortDesc_three_equal (m : ℕ) :
    sortDesc [(0, m), (1, m), (2, m)] = [(0, m), (1, m), (2, m)] := by
  simp [sortDesc, insertDesc]

/-- C1 (amended): for every configuration whose plane array has one matrix
per universe, get_hash_values on a batch of N vectors returns an integer
code array of shape (universe_count, N): one row per universe and one entry
per input vector. The shape (N, universe_count) stated by the spec and by
the docstring of get_hash_values is the transpose of what the code
returns; the builder of the hash table compensates by iterating over
hash_values.T. -/
theorem get_hash_values_shape (cfg : LSH) (vectors : Mat)
    (hwf : cfg.planes.length = cfg.n_universes) :
    (cfg.get_hash_values vectors).length = cfg.n_universes ∧
    ∀ row ∈ cfg.get_hash_values vectors, row.length = vectors.length := by
  constructor
  · rw [LSH.get_hash_values, List.length_map, hwf]
  · intro row hrow
    rw [LSH.get_hash_values] at hrow
    obtain ⟨m, _, rfl⟩ := List.mem_map.mp hrow
    rw [List.length_map]

/-- C2 (amended): the constructor performs no validation at all. It
succeeds for every max_buckets at least 1 and every nonnegative
dimensionality, computing plane_count = floor(log2(max_buckets)) and an
unbuilt map, and it raises a numeric error, never an InvalidConfiguration,
exactly when max_buckets is nonpositive or the dimensionality is
negative. -/
theorem lsh_init_no_validation (d mb : ℤ) (u : ℕ) (g : ℕ → ℕ → ℕ → ℚ) :
    (1 ≤ mb → 0 ≤ d → ∃ cfg, LSH.init d mb u g = .ok cfg ∧
      cfg.n_planes = Nat.log2 mb.toNat ∧
      cfg.n_buckets = 2 ^ Nat.log2 mb.toNat ∧
      cfg.hash_to_index_map = none) ∧
    ((mb ≤ 0 ∨ d < 0) → ∃ e, LSH.init d mb u g = .error e) := by
  constructor
  · intro h1 h2
    simp only [LSH.init]
    rw [if_neg (by omega), if_neg (by omega)]
    exact ⟨_, rfl, rfl, rfl, rfl⟩
  · intro h
    simp only [LSH.init]
    by_cases hm : mb ≤ 0
    · rw [if_pos hm]
      exact ⟨_, rfl⟩
    · rw [if_neg hm, if_pos (by omega)]
      exact ⟨_, rfl⟩

/-- C3: querying an index whose hash_to_index_map is still None, with at
least one universe configured, always fails: with a single universe the
0-d squeeze makes the enumerate raise, and with two or more universes
subscripting the None map raises. Both failures are TypeError in Python;
the spec names the unbuilt condition IndexNotBuilt. -/
theorem query_unbuilt_fails (cfg : LSH) (v : Vec) (k : ℕ)
    (hnone : cfg.hash_to_index_map = none)
    (hwf : cfg.planes.length = cfg.n_universes)
    (hpos : 1 ≤ cfg.n_universes) :
    ∃ e, cfg.get_similar_samples_indices v k = .error e := by
  have hlen : (queryHashes cfg v).length = cfg.n_universes := by
    rw [queryHashes, List.length_map, LSH.get_hash_values, List.length_map,
      hwf]
  rcases eq_or_ne cfg.n_universes 1 with h1 | h1
  · refine ⟨.zeroDimIteration, ?_⟩
    simp only [LSH.get_similar_samples_indices]
    rw [if_pos (by rw [hlen, h1])]
  · refine ⟨.noneSubscript, ?_⟩
    simp only [LSH.get_similar_samples_indices]
    rw [if_neg (by rw [hlen]; exact h1), if_neg (by rw [hlen]; omega), hnone]

/-- C4: on a built index the query is a pure read of the bucket state: all
configuration fields are unchanged and the bucket mapping, read
extensionally the way the spec defines it (an absent code maps to the
empty list), is identical before and after the call; in particular every
stored identifier list is unchanged. The underlying defaultdicts may
materialise fresh empty entries for missing codes, which is invisible to
this mapping. -/
theorem query_pure_read (cfg : LSH) (v : Vec) (k : ℕ) (t : Table)
    (res : List ℕ) (cfg2 : LSH)
    (hsome : cfg.hash_to_index_map = some t)
    (hok : cfg.get_similar_samples_indices v k = .ok (res, cfg2)) :
    cfg2.n_buckets = cfg.n_buckets ∧ cfg2.n_universes = cfg.n_universes ∧
    cfg2.n_planes = cfg.n_planes ∧ cfg2.planes = cfg.planes ∧
    ∃ t2, cfg2.hash_to_index_map = some t2 ∧
      ∀ u h, tableLookup t2 u h = tableLookup t u h := by
  simp only [LSH.get_similar_samples_indices] at hok
  by_cases h1 : (queryHashes cfg v).length = 1
  · rw [if_pos h1] at hok; cases hok
  · rw [if_neg h1] at hok
    by_cases h0 : (queryHashes cfg v).length = 0
    · rw [if_pos h0] at hok
      rw [Except.ok.injEq, Prod.mk.injEq] at hok
      obtain ⟨-, h3⟩ := hok
      subst h3
      exact ⟨rfl, rfl, rfl, rfl, t, hsome, fun u h => rfl⟩
    · rw [if_neg h0, hsome] at hok
      simp only [Except.ok.injEq, Prod.mk.injEq] at hok
      obtain ⟨-, h3⟩ := hok
      subst h3
      refine ⟨rfl, rfl, rfl, rfl, _, rfl, ?_⟩
      intro u h
      exact qStep_foldl_lookup _ t [] u h

/-- C5 (amended): make_hash_table called with an empty corpus does not
fail: it succeeds and installs an empty table, and every later query on a
configuration with at least two universes returns no candidates. The code
has no EmptyCorpus error. -/
theorem build_empty_corpus (cfg : LSH) (v : Vec) (k : ℕ)
    (hwf : cfg.planes.length = cfg.n_universes)
    (h2 : 2 ≤ cfg.n_universes) :
    (cfg.make_hash_table []).hash_to_index_map = some ([] : Table) ∧
    ∃ cfg2, (cfg.make_hash_table []).get_similar_samples_indices v k =
      .ok ([], cfg2) := by
  have hlen : (queryHashes (cfg.make_hash_table []) v).length =
      cfg.n_universes := by
    rw [queryHashes, List.length_map, LSH.get_hash_values, List.length_map]
    exact hwf
  constructor
  · rfl
  · have hq := query_built_eval (cfg.make_hash_table []) v k [] rfl
      (by omega)
    have hsim : ((queryHashes (cfg.make_hash_table []) v).enum.foldl qStep
        ([], ([] : Table))).1 = [] := by
      rw [qStep_foldl_fst, List.nil_append]
      refine flatten_of_all_nil _ ?_
      intro x hx
      obtain ⟨p, -, rfl⟩ := List.mem_map.mp hx
      rfl
    rw [hsim] at hq
    rw [show (most_common [] k).map (fun e => e.1) = ([] : List ℕ) by
      simp [most_common, counter, sortDesc]] at hq
    exact ⟨_, hq⟩

/-- C6: a successful construction with max_buckets at least 2 yields
n_buckets equal to 2 to the floor(log2(max_buckets)), a power of two that
is at most max_buckets and strictly greater than max_buckets / 2. -/
theorem n_buckets_pow_two (d mb : ℤ) (u : ℕ) (g : ℕ → ℕ → ℕ → ℚ)
    (cfg : LSH) (hok : LSH.init d mb u g = .ok cfg) (hmb : 2 ≤ mb) :
    cfg.n_buckets = 2 ^ Nat.log2 mb.toNat ∧
    cfg.n_buckets ≤ mb.toNat ∧ mb.toNat < 2 * cfg.n_buckets := by
  simp only [LSH.init] at hok
  rw [if_neg (by omega)] at hok
  by_cases hd : d < 0
  · rw [if_pos hd] at hok; cases hok
  · rw [if_neg hd] at hok
    cases hok
    refine ⟨rfl, ?_, ?_⟩
    · exact Nat.log2_self_le (by omega)
    · have h1 := Nat.lt_log2_self (n := mb.toNat)
      have h2 : (2 : ℕ) ^ (Nat.log2 mb.toNat + 1) =
          2 * 2 ^ Nat.log2 mb.toNat := by ring
      show mb.toNat < 2 * 2 ^ Nat.log2 mb.toNat
      omega

/-- C7: for every universe and every vector of the batch, bit i of the
produced code is set exactly when the dot product with hyperplane i is
nonnegative (an exact zero gives bit 1), the code is the sum of bit i
times 2 to the i, and consequently every code is below n_buckets whenever
n_buckets is 2 to the n_planes, as the constructor guarantees. -/
theorem hash_bits_and_range (cfg : LSH) (vectors : Mat) (u n : ℕ)
    (hu : u < cfg.planes.length) (hn : n < vectors.length)
    (hb : cfg.n_buckets = 2 ^ cfg.n_planes) :
    (∀ i, i < cfg.n_planes →
      Nat.testBit (((cfg.get_hash_values vectors).getD u []).getD n 0) i =
        decide (0 ≤ dotPlane (vectors.getD n []) (cfg.planes.getD u []) i)) ∧
    ((cfg.get_hash_values vectors).getD u []).getD n 0 < cfg.n_buckets := by
  have he : ((cfg.get_hash_values vectors).getD u []).getD n 0 =
      hashOne (cfg.planes.getD u []) cfg.n_planes (vectors.getD n []) := by
    rw [LSH.get_hash_values, getD_map _ cfg.planes u _ [] hu,
      getD_map _ vectors n _ [] hn]
  have hbound : ∀ p, (if 0 ≤ dotPlane (vectors.getD n [])
      (cfg.planes.getD u []) p then (1 : ℕ) else 0) ≤ 1 := by
    intro p
    split_ifs <;> omega
  constructor
  · intro i hi
    rw [he, hashOne, pack_testBit cfg.n_planes _ hbound i hi]
    rcases Classical.em (0 ≤ dotPlane (vectors.getD n [])
        (cfg.planes.getD u []) i) with hd | hd <;> simp [hd]
  · rw [he, hashOne, hb]
    exact pack_lt cfg.n_planes _ hbound

/-- C8: after building the table from N vectors, for each configured
universe the stored identifier lists partition the identifiers 0 to N-1:
each such identifier occurs exactly once across the buckets of that
universe, sits in exactly one bucket of it, and no other identifier is
stored. -/
theorem build_partition (cfg : LSH) (vectors : Mat) (u : ℕ)
    (hwf : cfg.planes.length = cfg.n_universes) (hu : u < cfg.n_universes) :
    ∃ T, (cfg.make_hash_table vectors).hash_to_index_map = some T ∧
      (∀ i, i < vectors.length →
        List.count i (allIndices (universeBucket T u)) = 1 ∧
        (universeBucket T u).countP (fun bk => decide (i ∈ bk.2)) = 1) ∧
      (∀ j, vectors.length ≤ j →
        List.count j (allIndices (universeBucket T u)) = 0) := by
  have hlen : (cfg.get_hash_values vectors).length = cfg.n_universes := by
    rw [LSH.get_hash_values, List.length_map, hwf]
  refine ⟨buildTable (cfg.get_hash_values vectors) vectors.length, rfl,
    ?_, ?_⟩
  · intro i hi
    have hc := buildTable_count (cfg.get_hash_values vectors)
      vectors.length u i
    rw [hlen, if_pos hu, if_pos hi, Nat.one_mul] at hc
    exact ⟨hc, countP_mem_of_count_one _ _ hc⟩
  · intro j hj
    have hc := buildTable_count (cfg.get_hash_values vectors)
      vectors.length u j
    rw [if_neg (show ¬ j < vectors.length by omega), Nat.mul_zero] at hc
    exact hc

/-- C10: whenever a query on a freshly built index returns normally, the
returned identifier list has no duplicates and every returned identifier
is a position into the indexed corpus. -/
theorem query_nodup_and_bounded (cfg : LSH) (corpus : Mat) (v : Vec)
    (k : ℕ) (res : List ℕ) (cfg2 : LSH)
    (hok : (cfg.make_hash_table corpus).get_similar_samples_indices v k =
      .ok (res, cfg2)) :
    res.Nodup ∧ ∀ j ∈ res, j < corpus.length := by
  by_cases h1 : (queryHashes (cfg.make_hash_table corpus) v).length = 1
  · rw [show (cfg.make_hash_table corpus).get_similar_samples_indices v k =
        .error .zeroDimIteration by
      simp only [LSH.get_similar_samples_indices]
      rw [if_pos h1]] at hok
    cases hok
  · by_cases h0 : (queryHashes (cfg.make_hash_table corpus) v).length = 0
    · rw [show (cfg.make_hash_table corpus).get_similar_samples_indices v k =
          .ok ((most_common [] k).map (fun e => e.1),
            cfg.make_hash_table corpus) by
        simp only [LSH.get_similar_samples_indices]
        rw [if_neg h1, if_pos h0]] at hok
      rw [Except.ok.injEq, Prod.mk.injEq] at hok
      obtain ⟨h2, -⟩ := hok
      rw [← h2]
      constructor
      · simp [most_common, counter, sortDesc]
      · intro j hj
        simp [most_common, counter, sortDesc] at hj
    · rw [query_built_eval (cfg.make_hash_table corpus) v k
        (buildTable (cfg.get_hash_values corpus) corpus.length) rfl
        (by omega)] at hok
      rw [Except.ok.injEq, Prod.mk.injEq] at hok
      obtain ⟨h2, -⟩ := hok
      rw [← h2]
      set S := ((queryHashes (cfg.make_hash_table corpus) v).enum.foldl qStep
        ([], buildTable (cfg.get_hash_values corpus) corpus.length)).1 with hS
      have hperm : ((sortDesc (counter S)).map Prod.fst).Perm
          ((counter S).map Prod.fst) := (sortDesc_perm (counter S)).map _
      constructor
      · have hnd2 : ((sortDesc (counter S)).map Prod.fst).Nodup :=
          hperm.nodup_iff.mpr (counter_keys_nodup S)
        rw [most_common]
        have hmt : ((sortDesc (counter S)).take k).map (fun e : ℕ × ℕ => e.1)
            = ((sortDesc (counter S)).map Prod.fst).take k :=
          List.map_take _ _ _
        rw [hmt]
        exact (List.take_sublist _ _).nodup hnd2
      · intro j hj
        rw [most_common] at hj
        have hj2 : j ∈ ((sortDesc (counter S)).map Prod.fst).take k := by
          rw [← List.map_take]
          exact hj
        have hj3 : j ∈ (counter S).map Prod.fst :=
          hperm.mem_iff.mp (List.mem_of_mem_take hj2)
        have hj4 : j ∈ S := counter_keys_sub S j hj3
        rw [hS, qStep_foldl_fst, List.nil_append] at hj4
        obtain ⟨L2, hL2, hjL2⟩ := List.mem_flatten.mp hj4
        obtain ⟨p, -, rfl⟩ := List.mem_map.mp hL2
        have hj5 : j ∈ allIndices (universeBucket
            (buildTable (cfg.get_hash_values corpus) corpus.length) p.1) :=
          mem_assocFind_allIndices _ _ _ hjL2
        by_contra hge
        push_neg at hge
        have hcount := buildTable_count (cfg.get_hash_values corpus)
          corpus.length p.1 j
        rw [if_neg (show ¬ j < corpus.length by omega), Nat.mul_zero]
          at hcount
        have hpos := List.count_pos_iff.mpr hj5
        omega

/-- C9 (amended): vote-count ties are broken by first-occurrence order
under the universe-ascending scan, formalised as the stability of the
descending count sort over the insertion-ordered counter, and for every
configuration with at least two universes and well-formed planes, after
building from a corpus of three identical vectors a query with that same
vector and top_k 5 returns exactly [0, 1, 2] in that order. The original
claim also covered single-universe configurations, where the query instead
raises a TypeError because np.squeeze collapses the (1, 1) hash array to a
0-d array. -/
theorem query_tiebreak_identical_corpus :
    (∀ (l : List ℕ) (c : ℕ),
      (sortDesc (counter l)).filter (fun p => p.2 = c) =
        (counter l).filter (fun p => p.2 = c)) ∧
    ∀ (cfg : LSH) (v : Vec),
      cfg.planes.length = cfg.n_universes → 2 ≤ cfg.n_universes →
      (∀ m ∈ cfg.planes, m.length = v.length) →
      ∃ cfg2, (cfg.make_hash_table [v, v, v]).get_similar_samples_indices v 5
        = .ok ([0, 1, 2], cfg2) := by
  constructor
  · intro l c
    exact sortDesc_filter (counter l) c
  · intro cfg v hwf h2 _hdims
    set hv3 := cfg.get_hash_values [v, v, v] with hhv3
    set T := buildTable hv3 3 with hT
    have hsome : (cfg.make_hash_table [v, v, v]).hash_to_index_map =
        some T := rfl
    have hqe : queryHashes (cfg.make_hash_table [v, v, v]) v =
        cfg.planes.map (fun m => hashOne m cfg.n_planes v) := by
      rw [queryHashes, LSH.get_hash_values, List.map_map]
      rfl
    have hlen : (queryHashes (cfg.make_hash_table [v, v, v]) v).length =
        cfg.n_universes := by
      rw [hqe, List.length_map, hwf]
    have hv3len : hv3.length = cfg.n_universes := by
      rw [hhv3, LSH.get_hash_values, List.length_map, hwf]
    have hpw : hv3.enum.Pairwise (fun a b => a.1 ≠ b.1) := by
      rw [List.enum_eq_enumFrom]
      exact enumFrom_fst_pairwise hv3 0
    have key : ∀ u2, u2 < cfg.n_universes →
        tableLookup T u2 (hashOne (cfg.planes.getD u2 []) cfg.n_planes v) =
          [0, 1, 2] := by
      intro u2 hu2
      set hm := hashOne (cfg.planes.getD u2 []) cfg.n_planes v with hhm
      have hrow : hv3.getD u2 [] = [hm, hm, hm] := by
        rw [hhv3, LSH.get_hash_values,
          getD_map _ cfg.planes u2 _ [] (by rw [hwf]; exact hu2)]
        rfl
      have hfind : hv3.enum.find? (fun p => p.1 = u2) =
          some (u2, [hm, hm, hm]) := by
        rw [find_enum hv3 [] u2 (by rw [hv3len]; exact hu2), hrow]
      have l1 : tableLookup (hv3.enum.foldl (bStep 0) []) u2 hm = [0] := by
        rw [bStep_foldl_lookup_found hv3.enum 0 u2 hm (u2, [hm, hm, hm]) []
          hpw hfind, if_pos (show ((u2, [hm, hm, hm]) :
            ℕ × List ℕ).2.getD 0 0 = hm from rfl)]
        rfl
      have l2 : tableLookup (hv3.enum.foldl (bStep 1)
          (hv3.enum.foldl (bStep 0) [])) u2 hm = [0, 1] := by
        rw [bStep_foldl_lookup_found hv3.enum 1 u2 hm (u2, [hm, hm, hm]) _
          hpw hfind, if_pos (show ((u2, [hm, hm, hm]) :
            ℕ × List ℕ).2.getD 1 0 = hm from rfl), l1]
        rfl
      have l3 : tableLookup (hv3.enum.foldl (bStep 2) (hv3.enum.foldl
          (bStep 1) (hv3.enum.foldl (bStep 0) []))) u2 hm = [0, 1, 2] := by
        rw [bStep_foldl_lookup_found hv3.enum 2 u2 hm (u2, [hm, hm, hm]) _
          hpw hfind, if_pos (show ((u2, [hm, hm, hm]) :
            ℕ × List ℕ).2.getD 2 0 = hm from rfl), l2]
        rfl
      have hT3 : T = hv3.enum.foldl (bStep 2)
          (hv3.enum.foldl (bStep 1) (hv3.enum.foldl (bStep 0) [])) := rfl
      rw [hT3]
      exact l3
    have hq := query_built_eval (cfg.make_hash_table [v, v, v]) v 5 T hsome
      (by rw [hlen]; omega)
    have hmap : (queryHashes (cfg.make_hash_table [v, v, v]) v).enum.map
        (fun p => tableLookup T p.1 p.2) =
      (List.range
          (queryHashes (cfg.make_hash_table [v, v, v]) v).length).map
        (fun j => tableLookup T j
          ((queryHashes (cfg.make_hash_table [v, v, v]) v).getD j 0)) :=
      map_enum _ 0 _
    have hsim : ((queryHashes (cfg.make_hash_table [v, v, v]) v).enum.foldl
        qStep ([], T)).1 =
        List.flatten (List.replicate cfg.n_universes [0, 1, 2]) := by
      rw [qStep_foldl_fst, List.nil_append, hmap, hlen]
      have e1 : (List.range cfg.n_universes).map
          (fun j => tableLookup T j
            ((queryHashes (cfg.make_hash_table [v, v, v]) v).getD j 0)) =
          (List.range cfg.n_universes).map
            (fun _ => ([0, 1, 2] : List ℕ)) := by
        refine List.map_congr_left ?_
        intro j hj
        have hjU : j < cfg.n_universes := List.mem_range.mp hj
        have hgd : (queryHashes (cfg.make_hash_table [v, v, v]) v).getD j 0 =
            hashOne (cfg.planes.getD j []) cfg.n_planes v := by
          rw [hqe, getD_map _ cfg.planes j _ [] (by rw [hwf]; exact hjU)]
        rw [hgd]
        exact key j hjU
      rw [e1, List.map_const', List.length_range]
    rw [hsim] at hq
    have hmc : (most_common
        (List.flatten (List.replicate cfg.n_universes [0, 1, 2])) 5).map
        (fun e => e.1) = [0, 1, 2] := by
      rw [most_common, counter_flatten_replicate cfg.n_universes (by omega),
        sortDesc_three_equal, List.take_of_length_le (by simp)]
      rfl
    rw [hmc] at hq
    exact ⟨_, hq⟩

section ConcreteEvaluation

attribute [local semireducible] Rat.mul Rat.add Rat.sub

/-- C1 counterexample: on the two-universe configuration lshB and a batch
of one vector, the output of get_hash_values has 2 rows, not the 1 row per
input vector that shape (N, universe_count) requires. -/
theorem get_hash_values_shape_claim_cex :
    (lshB.get_hash_values [[1]]).length = 2 ∧ (2 : ℕ) ≠ 1 := by
  constructor
  · decide
  · decide

/-- C1 witness: the amended shape statement evaluated on lshB and a batch
of two one-dimensional vectors. -/
theorem get_hash_values_shape_witness :
    (lshB.get_hash_values [[1], [2]]).length = lshB.n_universes ∧
    ∀ row ∈ lshB.get_hash_values [[1], [2]],
      row.length = ([[1], [2]] : Mat).length :=
  get_hash_values_shape lshB [[1], [2]] rfl

/-- C2 counterexample: constructing with dimensionality 0 and max_buckets
1, both of which the claim says must fail with InvalidConfiguration,
succeeds. -/
theorem lsh_init_claim_cex :
    exceptOk (LSH.init 0 1 25 (fun _ _ _ => 1)) = true := by
  decide

/-- C2 witness: the amended constructor statement evaluated at
dimensionality 0 and max_buckets 1. -/
theorem lsh_init_no_validation_witness :
    ∃ cfg, LSH.init 0 1 25 (fun _ _ _ => 1) = .ok cfg ∧
      cfg.n_planes = Nat.log2 (1 : ℤ).toNat ∧
      cfg.n_buckets = 2 ^ Nat.log2 (1 : ℤ).toNat ∧
      cfg.hash_to_index_map = none :=
  (lsh_init_no_validation 0 1 25 (fun _ _ _ => 1)).1 (by decide) (by decide)

/-- C3 witness: querying the freshly constructed two-universe
configuration lshA, whose map is still None, fails. -/
theorem query_unbuilt_fails_witness :
    ∃ e, lshA.get_similar_samples_indices [1, 1] 5 = .error e :=
  query_unbuilt_fails lshA [1, 1] 5 rfl rfl (by decide)

/-- C4 witness: a query on the concrete built index builtB returns [0] and
leaves the bucket mapping of its table extensionally unchanged. -/
theorem query_pure_read_witness :
    builtB.n_buckets = builtB.n_buckets ∧
    builtB.n_universes = builtB.n_universes ∧
    builtB.n_planes = builtB.n_planes ∧ builtB.planes = builtB.planes ∧
    ∃ t2, builtB.hash_to_index_map = some t2 ∧
      ∀ u h, tableLookup t2 u h = tableLookup tableB u h :=
  query_pure_read builtB [1] 5 tableB [0] builtB (by decide) (by decide)

/-- C5 counterexample: building from the empty corpus returns normally
with an empty table, and the following query returns no candidates; no
EmptyCorpus failure occurs. -/
theorem build_empty_corpus_claim_cex :
    (lshB.make_hash_table []).hash_to_index_map = some ([] : Table) ∧
    ((lshB.make_hash_table []).get_similar_samples_indices [1] 5).map
      (fun r => r.1) = .ok [] := by
  constructor
  · decide
  · decide

/-- C5 witness: the amended empty-corpus statement evaluated on lshB. -/
theorem build_empty_corpus_witness :
    (lshB.make_hash_table []).hash_to_index_map = some ([] : Table) ∧
    ∃ cfg2, (lshB.make_hash_table []).get_similar_samples_indices [1] 5 =
      .ok ([], cfg2) :=
  build_empty_corpus lshB [1] 5 rfl (by decide)

/-- C6 witness: constructing with max_buckets 2 yields lshC with
n_buckets 2, a power of two in the required interval. -/
theorem n_buckets_pow_two_witness :
    lshC.n_buckets = 2 ^ Nat.log2 (2 : ℤ).toNat ∧
    lshC.n_buckets ≤ (2 : ℤ).toNat ∧ (2 : ℤ).toNat < 2 * lshC.n_buckets :=
  n_buckets_pow_two 1 2 1 (fun _ _ _ => 1) lshC
    (by
      have h2 : Nat.log2 (Int.toNat 2) = 1 := by simp [Nat.log2]
      simp only [LSH.init, h2]
      norm_num
      decide)
    (by decide)

/-- C7 witness: the bit semantics and the range bound evaluated on lshA,
universe 1, and the vector [1, -1]. -/
theorem hash_bits_and_range_witness :
    (∀ i, i < lshA.n_planes →
      Nat.testBit (((lshA.get_hash_values [[1, -1]]).getD 1 []).getD 0 0) i =
        decide (0 ≤ dotPlane (([[1, -1]] : Mat).getD 0 [])
          (lshA.planes.getD 1 []) i)) ∧
    ((lshA.get_hash_values [[1, -1]]).getD 1 []).getD 0 0 < lshA.n_buckets :=
  hash_bits_and_range lshA [[1, -1]] 1 0 (by decide) (by decide) (by decide)

/-- C8 witness: the partition property of the built table of builtB in
universe 0. -/
theorem build_partition_witness :
    ∃ T, (lshB.make_hash_table [[1], [-1]]).hash_to_index_map = some T ∧
      (∀ i, i < ([[1], [-1]] : Mat).length →
        List.count i (allIndices (universeBucket T 0)) = 1 ∧
        (universeBucket T 0).countP (fun bk => decide (i ∈ bk.2)) = 1) ∧
      (∀ j, ([[1], [-1]] : Mat).length ≤ j →
        List.count j (allIndices (universeBucket T 0)) = 0) :=
  build_partition lshB [[1], [-1]] 0 rfl (by decide)

/-- C9 counterexample: the single-universe configuration lshC is produced
by a valid construction with max_buckets 2, yet after building from three
identical vectors the query with that vector raises the 0-d iteration
TypeError instead of returning [0, 1, 2]. -/
theorem query_tiebreak_claim_cex :
    LSH.init 1 2 1 (fun _ _ _ => 1) = .ok lshC ∧
    (lshC.make_hash_table [[1], [1], [1]]).get_similar_samples_indices [1] 5
      = .error .zeroDimIteration := by
  constructor
  · have h2 : Nat.log2 (Int.toNat 2) = 1 := by simp [Nat.log2]
    simp only [LSH.init, h2]
    norm_num
    decide
  · decide

/-- C9 witness: the amended identical-corpus scenario evaluated on the
two-universe configuration lshB. -/
theorem query_tiebreak_witness :
    ∃ cfg2, (lshB.make_hash_table [[1], [1], [1]]).get_similar_samples_indices
      [1] 5 = .ok ([0, 1, 2], cfg2) :=
  query_tiebreak_identical_corpus.2 lshB [1] rfl (by decide) (by decide)

/-- C10 witness: the query on builtB returns [0], which has no duplicates
and is a position into the two-vector corpus. -/
theorem query_nodup_and_bounded_witness :
    ([0] : List ℕ).Nodup ∧ ∀ j ∈ ([0] : List ℕ),
      j < ([[1], [-1]] : Mat).length :=
  query_nodup_and_bounded lshB [[1], [-1]] [1] 5 [0] builtB (by decide)

end ConcreteEvaluation

end MLUtils
